import Mathlib

/-!
Verification of the `lsm` crate of `smol-lsm`: an in-memory log-structured
merge tree with a sorted memtable, leveled storage, cascading compaction and
tombstone-based deletion.

Shallow embedding notes:
* Rust `Vec<u8>` byte strings are modelled as `List Nat`; `Ord::cmp` on byte
  slices is the lexicographic comparison `cmpBytes`.
* The `BTreeMap<Vec<u8>, Option<Vec<u8>>>` memtable is modelled as an
  association list kept strictly sorted by key (`mtInsert` is the ordered
  upsert; iteration order of the map is exactly the list order).
* `usize` arithmetic in `level_capacity` is 64-bit: `<<` reduces the shift
  amount mod 64 and the result is taken mod 2^64.
* The recursive cascade `merge_into_level` and the binary search inside `get`
  recurse on an explicit fuel so that every definition is structurally
  recursive and kernel-computable; the fuel supplied by the wrappers is proved
  sufficient (this is the termination argument of the source: the cascade
  strictly increases the level index and stops at the number of slots, the
  search window shrinks at every probe).
-/

/-- Byte-string keys (`Vec<u8>`), modelled as lists of naturals. -/
abbrev Key : Type := List Nat

/-- Byte-string values (`Vec<u8>`). -/
abbrev Value : Type := List Nat

/-- One entry: a key paired with a live value (`some`) or a tombstone (`none`). -/
abbrev Entry : Type := Key × Option Value

/-- Lexicographic comparison of byte strings, `Ord::cmp` on `Vec<u8>`. -/
def cmpBytes : Key → Key → Ordering
  | [], [] => Ordering.eq
  | [], _ :: _ => Ordering.lt
  | _ :: _, [] => Ordering.gt
  | a :: as, b :: bs =>
    match compare a b with
    | Ordering.eq => cmpBytes as bs
    | o => o

/-- One level of the mock "disk" layout: an immutable sorted run of entries. -/
structure LSMLevel where
  data : List Entry
deriving DecidableEq

/-- The LSM tree: memtable, level slots, and the flush threshold. -/
structure LSMTree where
  memtable : List Entry
  levels : List (Option LSMLevel)
  memtable_flush_threshold : Nat
deriving DecidableEq

/-- `LSMTree::new`. -/
def LSMTree.new (memtable_flush_threshold : Nat) : LSMTree :=
  { memtable := [], levels := [], memtable_flush_threshold }

/-- `LSMTree::level_capacity`: `self.memtable_flush_threshold << level` in
`usize` arithmetic (shift amount reduced mod 64, result mod `2^64`). -/
def LSMTree.level_capacity (t : LSMTree) (level : Nat) : Nat :=
  (t.memtable_flush_threshold <<< (level % 64)) % 2 ^ 64

/-- `BTreeMap::insert` on the sorted association list: ordered upsert. -/
def mtInsert : List Entry → Key → Option Value → List Entry
  | [], k, v => [(k, v)]
  | (k', v') :: rest, k, v =>
    match cmpBytes k k' with
    | Ordering.lt => (k, v) :: (k', v') :: rest
    | Ordering.eq => (k, v) :: rest
    | Ordering.gt => (k', v') :: mtInsert rest k v

/-- `BTreeMap::get` on the association list: the value stored for `k`, if any. -/
def assocFind : List Entry → Key → Option (Option Value)
  | [], _ => none
  | e :: rest, k => if e.1 = k then some e.2 else assocFind rest k

/-- Inner loop of `merge_sorted`: the old side's head is `o` (tail
`old_data`), and `mergeRest` merges `old_data` with a remaining new side; the
encoding is the standard nested structural recursion for the two-pointer merge
loop, with exactly the three comparison cases of the source. -/
def mergeInner (o : Entry) (old_data : List Entry)
    (mergeRest : List Entry → List Entry) : List Entry → List Entry
  | [] => o :: old_data
  | n :: new_data =>
    match cmpBytes o.1 n.1 with
    | Ordering.lt => o :: mergeRest (n :: new_data)
    | Ordering.gt => n :: mergeInner o old_data mergeRest new_data
    | Ordering.eq => n :: mergeRest new_data

/-- `merge_sorted`: two-way sorted merge, the `new` side wins on equal keys;
once either side runs out, the rest of the other side is kept verbatim. -/
def merge_sorted : List Entry → List Entry → List Entry
  | [], new_data => new_data
  | o :: old_data, new_data => mergeInner o old_data (merge_sorted old_data) new_data

/-- The merge satisfies the source's recursion equation on two non-empty
sides: emit the smaller key, the `new` entry on ties. -/
theorem merge_sorted_cons_cons (o n : Entry) (os ns : List Entry) :
    merge_sorted (o :: os) (n :: ns) =
      match cmpBytes o.1 n.1 with
      | Ordering.lt => o :: merge_sorted os (n :: ns)
      | Ordering.gt => n :: merge_sorted (o :: os) ns
      | Ordering.eq => n :: merge_sorted os ns := rfl

/-- `slice::binary_search_by` over the window `[left, right)`, fuelled; the
wrapper supplies fuel larger than the initial window, which is proved
sufficient (`bsearchGo_isSome`). Returns `some index` for `Ok(index)`;
`Err` positions are unused by the source and collapsed to `none`. -/
def bsearchGo (data : List Entry) (key : Key) : Nat → Nat → Nat → Option Nat
  | 0, _, _ => none
  | fuel + 1, left, right =>
    if right ≤ left then none
    else
      let mid := left + (right - left) / 2
      match cmpBytes (data.getD mid ([], none)).1 key with
      | Ordering.lt => bsearchGo data key fuel (mid + 1) right
      | Ordering.gt => bsearchGo data key fuel left mid
      | Ordering.eq => some mid

/-- `level.data.binary_search_by(|(k, _)| k.as_slice().cmp(key))`. -/
def binary_search (data : List Entry) (key : Key) : Option Nat :=
  bsearchGo data key (data.length + 1) 0 data.length

/-- The level-scanning loop of `LSMTree::get`: levels newest-to-oldest, binary
searching each populated level, first hit returned. -/
def levelsGet : List (Option LSMLevel) → Key → Option Value
  | [], _ => none
  | none :: rest, key => levelsGet rest key
  | some lv :: rest, key =>
    match binary_search lv.data key with
    | some pos => (lv.data.getD pos ([], none)).2
    | none => levelsGet rest key

/-- `LSMTree::get`: memtable first, then the levels. -/
def LSMTree.get (t : LSMTree) (key : Key) : Option Value :=
  match assocFind t.memtable key with
  | some value => value
  | none => levelsGet t.levels key

/-- The recursion of `LSMTree::merge_into_level`, fuelled; `none` signals fuel
exhaustion and is proved unreachable for the wrapper's fuel
(`mergeIntoLevelGo_isSome`). -/
def mergeIntoLevelGo : Nat → LSMTree → Nat → List Entry → Option LSMTree
  | 0, _, _, _ => none
  | fuel + 1, t, level, new_data =>
    if t.levels.length ≤ level then
      some { t with levels := t.levels ++ [some ⟨new_data⟩] }
    else
      let existing_data := ((t.levels.getD level none).map LSMLevel.data).getD []
      let t' : LSMTree := { t with levels := t.levels.set level none }
      let data := merge_sorted existing_data new_data
      if t.level_capacity level ≤ data.length then
        mergeIntoLevelGo fuel t' (level + 1) data
      else
        some { t' with levels := t'.levels.set level (some ⟨data⟩) }

/-- `LSMTree::merge_into_level`: the cascade, run with sufficient fuel. -/
def LSMTree.merge_into_level (t : LSMTree) (level : Nat) (new_data : List Entry) : LSMTree :=
  (mergeIntoLevelGo (t.levels.length - level + 1) t level new_data).getD t

/-- `LSMTree::flush_memtable`: detach the memtable (in key order) and merge it
into level 0. -/
def LSMTree.flush_memtable (t : LSMTree) : LSMTree :=
  LSMTree.merge_into_level { t with memtable := [] } 0 t.memtable

/-- `LSMTree::insert`: upsert into the memtable, flush when the entry count
reaches the threshold. -/
def LSMTree.insert (t : LSMTree) (key : Key) (value : Option Value) : LSMTree :=
  let t1 : LSMTree := { t with memtable := mtInsert t.memtable key value }
  if t1.memtable_flush_threshold ≤ t1.memtable.length then
    t1.flush_memtable
  else
    t1

/-- `LSMTree::delete`: insert a tombstone. -/
def LSMTree.delete (t : LSMTree) (key : Key) : LSMTree :=
  t.insert key none

/-- Trees reachable from `new` by the public write operations (`get` does not
mutate, and `delete` is `insert` of a tombstone). -/
inductive Reachable : LSMTree → Prop
  | new (T : Nat) : Reachable (LSMTree.new T)
  | insert {t : LSMTree} (k : Key) (v : Option Value) :
      Reachable t → Reachable (t.insert k v)

/-! ### Order properties of the byte comparison -/

theorem cmpBytes_eq_iff : ∀ a b : Key, cmpBytes a b = Ordering.eq ↔ a = b := by
  intro a
  induction a with
  | nil => intro b; cases b <;> simp [cmpBytes]
  | cons x xs ih =>
    intro b
    cases b with
    | nil => simp [cmpBytes]
    | cons y ys =>
      simp only [cmpBytes]
      cases h : compare x y with
      | lt =>
        have hne : x ≠ y := Nat.ne_of_lt (Nat.compare_eq_lt.mp h)
        simp [hne]
      | eq =>
        have hxy : x = y := Nat.compare_eq_eq.mp h
        subst hxy
        simp [ih ys]
      | gt =>
        have hne : x ≠ y := (Nat.ne_of_lt (Nat.compare_eq_gt.mp h)).symm
        simp [hne]

theorem cmpBytes_self (a : Key) : cmpBytes a a = Ordering.eq :=
  (cmpBytes_eq_iff a a).mpr rfl

theorem cmpBytes_gt_iff_lt : ∀ a b : Key, cmpBytes a b = Ordering.gt ↔ cmpBytes b a = Ordering.lt := by
  intro a
  induction a with
  | nil => intro b; cases b <;> simp [cmpBytes]
  | cons x xs ih =>
    intro b
    cases b with
    | nil => simp [cmpBytes]
    | cons y ys =>
      simp only [cmpBytes]
      cases h : compare x y with
      | lt =>
        have h' : compare y x = Ordering.gt := Nat.compare_eq_gt.mpr (Nat.compare_eq_lt.mp h)
        rw [h']
        simp
      | eq =>
        have hxy : x = y := Nat.compare_eq_eq.mp h
        subst hxy
        rw [show compare x x = Ordering.eq from Nat.compare_eq_eq.mpr rfl]
        exact ih ys
      | gt =>
        have h' : compare y x = Ordering.lt := Nat.compare_eq_lt.mpr (Nat.compare_eq_gt.mp h)
        rw [h']
        simp

theorem cmpBytes_lt_trans : ∀ a b c : Key, cmpBytes a b = Ordering.lt →
    cmpBytes b c = Ordering.lt → cmpBytes a c = Ordering.lt := by
  intro a
  induction a with
  | nil =>
    intro b c h1 h2
    cases b with
    | nil => simp [cmpBytes] at h1
    | cons y ys =>
      cases c with
      | nil => simp [cmpBytes] at h2
      | cons z zs => rfl
  | cons x xs ih =>
    intro b c h1 h2
    cases b with
    | nil => simp [cmpBytes] at h1
    | cons y ys =>
      cases c with
      | nil => simp [cmpBytes] at h2
      | cons z zs =>
        simp only [cmpBytes] at h1 h2 ⊢
        cases hxy : compare x y with
        | lt =>
          cases hyz : compare y z with
          | lt =>
            rw [Nat.compare_eq_lt.mpr
              (Nat.lt_trans (Nat.compare_eq_lt.mp hxy) (Nat.compare_eq_lt.mp hyz))]
          | eq =>
            rw [← Nat.compare_eq_eq.mp hyz, hxy]
          | gt =>
            simp only [hyz] at h2
            exact absurd h2 (by decide)
        | eq =>
          simp only [hxy] at h1
          cases hyz : compare y z with
          | lt =>
            rw [Nat.compare_eq_eq.mp hxy, hyz]
          | eq =>
            simp only [hyz] at h2
            rw [Nat.compare_eq_eq.mp hxy, Nat.compare_eq_eq.mp hyz,
              show compare z z = Ordering.eq from Nat.compare_eq_eq.mpr rfl]
            exact ih ys zs h1 h2
          | gt =>
            simp only [hyz] at h2
            exact absurd h2 (by decide)
        | gt =>
          simp only [hxy] at h1
          exact absurd h1 (by decide)

theorem cmpBytes_lt_ne {a b : Key} (h : cmpBytes a b = Ordering.lt) : a ≠ b := by
  intro he
  subst he
  rw [cmpBytes_self] at h
  exact absurd h (by decide)

/-! ### Sortedness -/

/-- Strict key order on entries. -/
def keyLt (a b : Entry) : Prop := cmpBytes a.1 b.1 = Ordering.lt

instance (a b : Entry) : Decidable (keyLt a b) := by
  unfold keyLt
  infer_instance

/-- A run of entries sorted by strictly ascending key. -/
def sortedE (l : List Entry) : Prop := l.Pairwise keyLt

instance (l : List Entry) : Decidable (sortedE l) := by
  unfold sortedE
  infer_instance

/-! ### Memtable lemmas -/

theorem assocFind_mtInsert_self (mt : List Entry) (k : Key) (v : Option Value) :
    assocFind (mtInsert mt k v) k = some v := by
  induction mt with
  | nil => simp [mtInsert, assocFind]
  | cons e rest ih =>
    obtain ⟨k', v'⟩ := e
    simp only [mtInsert]
    cases h : cmpBytes k k' with
    | lt => simp [assocFind]
    | eq => simp [assocFind]
    | gt =>
      have hne : k' ≠ k := cmpBytes_lt_ne ((cmpBytes_gt_iff_lt k k').mp h)
      simp [assocFind, hne, ih]

theorem assocFind_mtInsert_ne (mt : List Entry) (k k' : Key) (v : Option Value)
    (hne : k' ≠ k) : assocFind (mtInsert mt k v) k' = assocFind mt k' := by
  induction mt with
  | nil => simp [mtInsert, assocFind, Ne.symm hne]
  | cons e rest ih =>
    obtain ⟨a, b⟩ := e
    simp only [mtInsert]
    cases h : cmpBytes k a with
    | lt => simp [assocFind, Ne.symm hne]
    | eq =>
      have hka : k = a := (cmpBytes_eq_iff k a).mp h
      subst hka
      simp [assocFind, Ne.symm hne]
    | gt =>
      simp only [assocFind]
      split
      · rfl
      · exact ih

theorem mtInsert_mem {mt : List Entry} {k : Key} {v : Option Value} :
    ∀ e ∈ mtInsert mt k v, e ∈ mt ∨ e = (k, v) := by
  induction mt with
  | nil => simp [mtInsert]
  | cons hd rest ih =>
    obtain ⟨a, b⟩ := hd
    intro e he
    simp only [mtInsert] at he
    cases h : cmpBytes k a with
    | lt =>
      rw [h] at he
      simp only [List.mem_cons] at he
      rcases he with he | he | he
      · exact Or.inr he
      · exact Or.inl (by simp [he])
      · exact Or.inl (by simp [he])
    | eq =>
      rw [h] at he
      simp only [List.mem_cons] at he
      rcases he with he | he
      · exact Or.inr he
      · exact Or.inl (by simp [he])
    | gt =>
      rw [h] at he
      simp only [List.mem_cons] at he
      rcases he with he | he
      · exact Or.inl (by simp [he])
      · rcases ih e he with h' | h'
        · exact Or.inl (by simp [h'])
        · exact Or.inr h'

theorem mtInsert_sorted (mt : List Entry) (k : Key) (v : Option Value)
    (hs : sortedE mt) : sortedE (mtInsert mt k v) := by
  induction mt with
  | nil => simp [mtInsert, sortedE]
  | cons hd rest ih =>
    obtain ⟨a, b⟩ := hd
    rw [sortedE, List.pairwise_cons] at hs
    obtain ⟨hb, hrest⟩ := hs
    simp only [mtInsert]
    cases h : cmpBytes k a with
    | lt =>
      rw [sortedE, List.pairwise_cons]
      refine ⟨?_, ?_⟩
      · intro e he
        rcases List.mem_cons.mp he with he | he
        · subst he
          exact h
        · exact cmpBytes_lt_trans _ _ _ h (hb e he)
      · rw [List.pairwise_cons]
        exact ⟨hb, hrest⟩
    | eq =>
      have hka : k = a := (cmpBytes_eq_iff k a).mp h
      rw [sortedE, List.pairwise_cons]
      refine ⟨?_, hrest⟩
      intro e he
      rw [keyLt]
      show cmpBytes k e.1 = Ordering.lt
      rw [hka]
      exact hb e he
    | gt =>
      rw [sortedE, List.pairwise_cons]
      refine ⟨?_, ih hrest⟩
      intro e he
      rcases mtInsert_mem e he with h' | h'
      · exact hb e h'
      · subst h'
        exact (cmpBytes_gt_iff_lt k a).mp h

/-! ### First-hit combinator and the association-list view of level lookups -/

/-- First-`some`-wins combinator (newest-to-oldest resolution). -/
def oelse {α : Type} : Option α → Option α → Option α
  | some a, _ => some a
  | none, b => b

theorem oelse_some {α : Type} (a : α) (b : Option α) : oelse (some a) b = some a := rfl

theorem oelse_none_right {α : Type} (a : Option α) : oelse a none = a := by
  cases a <;> rfl

theorem oelse_assoc {α : Type} (a b c : Option α) :
    oelse (oelse a b) c = oelse a (oelse b c) := by
  cases a <;> rfl

/-- Association-list lookup in one level slot. -/
def slotFind : Option LSMLevel → Key → Option (Option Value)
  | none, _ => none
  | some lv, k => assocFind lv.data k

/-- Association-list view of the level scan: first populated level containing
the key wins; `some none` is a tombstone hit, `none` a miss everywhere. -/
def levelsFind : List (Option LSMLevel) → Key → Option (Option Value)
  | [], _ => none
  | s :: rest, k => oelse (slotFind s k) (levelsFind rest k)

/-- Association-list view of the whole read path: memtable, then levels. -/
def resolve (t : LSMTree) (k : Key) : Option (Option Value) :=
  oelse (assocFind t.memtable k) (levelsFind t.levels k)

theorem levelsFind_append (a b : List (Option LSMLevel)) (k : Key) :
    levelsFind (a ++ b) k = oelse (levelsFind a k) (levelsFind b k) := by
  induction a with
  | nil => rfl
  | cons s rest ih => simp only [List.cons_append, levelsFind, List.append_eq, ih, oelse_assoc]

/-! ### Merge lemmas -/

theorem assocFind_eq_none_of_lt (l : List Entry) (k : Key)
    (h : ∀ e ∈ l, cmpBytes k e.1 = Ordering.lt) : assocFind l k = none := by
  induction l with
  | nil => rfl
  | cons e rest ih =>
    have hne : e.1 ≠ k := Ne.symm (cmpBytes_lt_ne (h e (by simp)))
    simp only [assocFind, hne, if_false]
    exact ih fun e' he' => h e' (by simp [he'])

theorem merge_sorted_nil_left (b : List Entry) : merge_sorted [] b = b := by
  simp [merge_sorted]

theorem merge_sorted_nil_right : ∀ a : List Entry, merge_sorted a [] = a := by
  intro a
  cases a <;> simp [merge_sorted, mergeInner]

theorem merge_sorted_mem : ∀ (a b : List Entry) (e : Entry),
    e ∈ merge_sorted a b → e ∈ a ∨ e ∈ b := by
  intro a
  induction a with
  | nil =>
    intro b e he
    rw [merge_sorted_nil_left] at he
    exact Or.inr he
  | cons o os ihA =>
    intro b
    induction b with
    | nil =>
      intro e he
      rw [merge_sorted_nil_right] at he
      exact Or.inl he
    | cons n ns ihB =>
      intro e he
      rw [merge_sorted_cons_cons] at he
      cases h : cmpBytes o.1 n.1 with
      | lt =>
        rw [h] at he
        simp only [List.mem_cons] at he
        rcases he with he | he
        · exact Or.inl (by simp [he])
        · rcases ihA (n :: ns) e he with h' | h'
          · exact Or.inl (by simp [h'])
          · exact Or.inr h'
      | gt =>
        rw [h] at he
        simp only [List.mem_cons] at he
        rcases he with he | he
        · exact Or.inr (by simp [he])
        · rcases ihB e he with h' | h'
          · exact Or.inl h'
          · exact Or.inr (by simp [h'])
      | eq =>
        rw [h] at he
        simp only [List.mem_cons] at he
        rcases he with he | he
        · exact Or.inr (by simp [he])
        · rcases ihA ns e he with h' | h'
          · exact Or.inl (by simp [h'])
          · exact Or.inr (by simp [h'])

theorem merge_sorted_sorted : ∀ (a b : List Entry),
    sortedE a → sortedE b → sortedE (merge_sorted a b) := by
  intro a
  induction a with
  | nil =>
    intro b _ hb
    rw [merge_sorted_nil_left]
    exact hb
  | cons o os ihA =>
    intro b
    induction b with
    | nil =>
      intro ha _
      rw [merge_sorted_nil_right]
      exact ha
    | cons n ns ihB =>
      intro ha hb
      rw [sortedE, List.pairwise_cons] at ha hb
      obtain ⟨hao, has⟩ := ha
      obtain ⟨hbn, hbs⟩ := hb
      rw [merge_sorted_cons_cons]
      cases h : cmpBytes o.1 n.1 with
      | lt =>
        rw [sortedE, List.pairwise_cons]
        refine ⟨?_, ihA (n :: ns) has (List.pairwise_cons.mpr ⟨hbn, hbs⟩)⟩
        intro e he
        rcases merge_sorted_mem os (n :: ns) e he with h' | h'
        · exact hao e h'
        · rcases List.mem_cons.mp h' with h'' | h''
          · subst h''
            exact h
          · exact cmpBytes_lt_trans _ _ _ h (hbn e h'')
      | gt =>
        rw [sortedE, List.pairwise_cons]
        refine ⟨?_, ihB (List.pairwise_cons.mpr ⟨hao, has⟩) hbs⟩
        intro e he
        have hno : cmpBytes n.1 o.1 = Ordering.lt := (cmpBytes_gt_iff_lt o.1 n.1).mp h
        rcases merge_sorted_mem (o :: os) ns e he with h' | h'
        · rcases List.mem_cons.mp h' with h'' | h''
          · subst h''
            exact hno
          · exact cmpBytes_lt_trans _ _ _ hno (hao e h'')
        · exact hbn e h'
      | eq =>
        have hon : o.1 = n.1 := (cmpBytes_eq_iff o.1 n.1).mp h
        rw [sortedE, List.pairwise_cons]
        refine ⟨?_, ihA ns has hbs⟩
        intro e he
        rcases merge_sorted_mem os ns e he with h' | h'
        · rw [keyLt]
          show cmpBytes n.1 e.1 = Ordering.lt
          rw [← hon]
          exact hao e h'
        · exact hbn e h'

theorem merge_sorted_assocFind : ∀ (a b : List Entry), sortedE a → sortedE b → ∀ k : Key,
    assocFind (merge_sorted a b) k = oelse (assocFind b k) (assocFind a k) := by
  intro a
  induction a with
  | nil =>
    intro b _ _ k
    rw [merge_sorted_nil_left]
    show assocFind b k = oelse (assocFind b k) (assocFind [] k)
    rw [show assocFind [] k = none from rfl, oelse_none_right]
  | cons o os ihA =>
    intro b
    induction b with
    | nil =>
      intro _ _ k
      rw [merge_sorted_nil_right]
      show assocFind (o :: os) k = oelse (assocFind [] k) (assocFind (o :: os) k)
      rw [show assocFind [] k = none from rfl]
      rfl
    | cons n ns ihB =>
      intro ha hb k
      rw [sortedE, List.pairwise_cons] at ha hb
      obtain ⟨hao, has⟩ := ha
      obtain ⟨hbn, hbs⟩ := hb
      rw [merge_sorted_cons_cons]
      cases h : cmpBytes o.1 n.1 with
      | lt =>
        show assocFind (o :: merge_sorted os (n :: ns)) k =
          oelse (assocFind (n :: ns) k) (assocFind (o :: os) k)
        simp only [assocFind]
        by_cases hk : o.1 = k
        · have hnone : assocFind (n :: ns) k = none := by
            refine assocFind_eq_none_of_lt _ _ ?_
            intro e he
            rcases List.mem_cons.mp he with he' | he'
            · subst he'
              rw [← hk]
              exact h
            · refine cmpBytes_lt_trans _ _ _ ?_ (hbn e he')
              rw [← hk]
              exact h
          rw [if_pos hk]
          simp only [assocFind] at hnone ⊢
          rw [hnone, if_pos hk]
          rfl
        · rw [if_neg hk, ihA (n :: ns) has (List.pairwise_cons.mpr ⟨hbn, hbs⟩) k, if_neg hk]
          simp only [assocFind]
      | gt =>
        show assocFind (n :: merge_sorted (o :: os) ns) k =
          oelse (assocFind (n :: ns) k) (assocFind (o :: os) k)
        simp only [assocFind]
        by_cases hk : n.1 = k
        · rw [if_pos hk, if_pos hk]
          rfl
        · rw [if_neg hk, if_neg hk, ihB (List.pairwise_cons.mpr ⟨hao, has⟩) hbs k]
          simp only [assocFind]
      | eq =>
        have hon : o.1 = n.1 := (cmpBytes_eq_iff o.1 n.1).mp h
        show assocFind (n :: merge_sorted os ns) k =
          oelse (assocFind (n :: ns) k) (assocFind (o :: os) k)
        simp only [assocFind]
        by_cases hk : n.1 = k
        · rw [if_pos hk, if_pos hk]
          rfl
        · have hok : ¬ o.1 = k := by
            rw [hon]
            exact hk
          rw [if_neg hk, if_neg hk, if_neg hok, ihA ns has hbs k]

theorem sortedE_keys_nodup (l : List Entry) (h : sortedE l) :
    (l.map Prod.fst).Nodup := by
  rw [List.Nodup, List.pairwise_map]
  exact h.imp fun hlt => cmpBytes_lt_ne hlt

/-! ### Binary search correctness on sorted runs -/

theorem sortedE_key_lt (data : List Entry) (hs : sortedE data) {i j : Nat}
    (hij : i < j) (hj : j < data.length) :
    cmpBytes (data.getD i ([], none)).1 (data.getD j ([], none)).1 = Ordering.lt := by
  have hi : i < data.length := Nat.lt_trans hij hj
  rw [List.getD_eq_getElem data ([], none) hi, List.getD_eq_getElem data ([], none) hj]
  exact List.pairwise_iff_getElem.mp hs i j hi hj hij

theorem bsearchGo_some (data : List Entry) (k : Key) :
    ∀ fuel left right i : Nat, right ≤ data.length →
      bsearchGo data k fuel left right = some i →
      i < data.length ∧ (data.getD i ([], none)).1 = k := by
  intro fuel
  induction fuel with
  | zero =>
    intro left right i _ hsome
    exact absurd hsome (by simp [bsearchGo])
  | succ fuel ih =>
    intro left right i hr hsome
    rw [bsearchGo] at hsome
    by_cases hlr : right ≤ left
    · rw [if_pos hlr] at hsome
      exact absurd hsome (by simp)
    · rw [if_neg hlr] at hsome
      simp only at hsome
      cases hc : cmpBytes (data.getD (left + (right - left) / 2) ([], none)).1 k with
      | lt =>
        rw [hc] at hsome
        exact ih _ _ _ hr hsome
      | gt =>
        rw [hc] at hsome
        have hmid : left + (right - left) / 2 ≤ right := by omega
        exact ih _ _ _ (Nat.le_trans hmid hr) hsome
      | eq =>
        rw [hc] at hsome
        have hi : i = left + (right - left) / 2 := by
          have : some (left + (right - left) / 2) = some i := hsome
          exact (Option.some.inj this).symm
        subst hi
        have hlt : left + (right - left) / 2 < right := by omega
        exact ⟨Nat.lt_of_lt_of_le hlt hr, (cmpBytes_eq_iff _ _).mp hc⟩

theorem bsearchGo_isSome (data : List Entry) (k : Key) (hs : sortedE data) :
    ∀ fuel left right i : Nat, right - left < fuel → right ≤ data.length →
      left ≤ i → i < right → (data.getD i ([], none)).1 = k →
      (bsearchGo data k fuel left right).isSome := by
  intro fuel
  induction fuel with
  | zero =>
    intro left right i hf _ hli hir _
    omega
  | succ fuel ih =>
    intro left right i hf hr hli hir hk
    rw [bsearchGo]
    have hlr : ¬ right ≤ left := by omega
    rw [if_neg hlr]
    simp only
    cases hc : cmpBytes (data.getD (left + (right - left) / 2) ([], none)).1 k with
    | lt =>
      have hmi : left + (right - left) / 2 < i := by
        by_contra hle
        push_neg at hle
        rcases Nat.lt_or_ge i (left + (right - left) / 2) with hlt | hge
        · have := sortedE_key_lt data hs hlt (by omega)
          rw [hk] at this
          have := cmpBytes_lt_trans _ _ _ hc this
          rw [cmpBytes_self] at this
          exact absurd this (by decide)
        · have heq : i = left + (right - left) / 2 := by omega
          rw [← heq, hk] at hc
          rw [cmpBytes_self] at hc
          exact absurd hc (by decide)
      exact ih _ _ i (by omega) hr (by omega) hir hk
    | gt =>
      have him : i < left + (right - left) / 2 := by
        have hck : cmpBytes k (data.getD (left + (right - left) / 2) ([], none)).1 = Ordering.lt :=
          (cmpBytes_gt_iff_lt _ _).mp hc
        by_contra hle
        push_neg at hle
        rcases Nat.lt_or_ge (left + (right - left) / 2) i with hlt | hge
        · have := sortedE_key_lt data hs hlt (by omega)
          rw [hk] at this
          have := cmpBytes_lt_trans _ _ _ this hck
          rw [cmpBytes_self] at this
          exact absurd this (by decide)
        · have heq : i = left + (right - left) / 2 := by omega
          rw [← heq, hk] at hc
          rw [cmpBytes_self] at hc
          exact absurd hc (by decide)
      exact ih _ _ i (by omega) (by omega) hli him hk
    | eq =>
      simp

theorem binary_search_found (data : List Entry) (k : Key) (hs : sortedE data)
    {i : Nat} (hi : i < data.length) (hk : (data.getD i ([], none)).1 = k) :
    ∃ j, binary_search data k = some j ∧ j < data.length ∧
      (data.getD j ([], none)).1 = k := by
  have h1 : (bsearchGo data k (data.length + 1) 0 data.length).isSome :=
    bsearchGo_isSome data k hs (data.length + 1) 0 data.length i (by omega)
      (Nat.le_refl _) (Nat.zero_le _) hi hk
  rw [Option.isSome_iff_exists] at h1
  obtain ⟨j, hj⟩ := h1
  have h2 := bsearchGo_some data k (data.length + 1) 0 data.length j (Nat.le_refl _) hj
  exact ⟨j, hj, h2⟩

theorem binary_search_none (data : List Entry) (k : Key)
    (hnone : ∀ i : Nat, i < data.length → (data.getD i ([], none)).1 ≠ k) :
    binary_search data k = none := by
  cases hb : binary_search data k with
  | none => rfl
  | some j =>
    have h2 := bsearchGo_some data k (data.length + 1) 0 data.length j (Nat.le_refl _) hb
    exact absurd h2.2 (hnone j h2.1)

theorem assocFind_ne_none_of_mem {l : List Entry} {e : Entry} {k : Key}
    (hmem : e ∈ l) (hk : e.1 = k) : assocFind l k ≠ none := by
  induction l with
  | nil => simp at hmem
  | cons hd rest ih =>
    simp only [assocFind]
    by_cases hhd : hd.1 = k
    · rw [if_pos hhd]
      simp
    · rw [if_neg hhd]
      rcases List.mem_cons.mp hmem with he | he
      · rw [← he] at hhd
        exact absurd hk hhd
      · exact ih he

/-- On a sorted run, a binary-search hit returns exactly the association-list
lookup of the key. -/
theorem binary_search_assocFind (data : List Entry) (k : Key) (hs : sortedE data) :
    (match binary_search data k with
      | some pos => some (data.getD pos ([], none)).2
      | none => none) = assocFind data k := by
  cases ha : assocFind data k with
  | some v =>
    have hmem : (k, v) ∈ data := by
      clear hs
      induction data with
      | nil => exact absurd ha (by simp [assocFind])
      | cons e rest ih =>
        simp only [assocFind] at ha
        by_cases hk : e.1 = k
        · rw [if_pos hk] at ha
          have he : e = (k, v) := by
            obtain ⟨e1, e2⟩ := e
            simp only at hk ha
            rw [hk, Option.some.inj ha]
          rw [← he]
          exact List.mem_cons_self e rest
        · rw [if_neg hk] at ha
          exact List.mem_cons_of_mem e (ih ha)
    obtain ⟨i, hi, hie⟩ := List.mem_iff_getElem.mp hmem
    have hik : (data.getD i ([], none)).1 = k := by
      rw [List.getD_eq_getElem data ([], none) hi, hie]
    obtain ⟨j, hj, hjl, hjk⟩ := binary_search_found data k hs hi hik
    rw [hj]
    -- the key occurs at a unique position in a sorted run, so position j holds v
    have hju : j = i := by
      rcases Nat.lt_trichotomy j i with h' | h' | h'
      · have := sortedE_key_lt data hs h' hi
        rw [hjk, hik] at this
        rw [cmpBytes_self] at this
        exact absurd this (by decide)
      · exact h'
      · have := sortedE_key_lt data hs h' hjl
        rw [hjk, hik] at this
        rw [cmpBytes_self] at this
        exact absurd this (by decide)
    subst hju
    show some (data.getD j ([], none)).2 = some v
    rw [List.getD_eq_getElem data ([], none) hi, hie]
  | none =>
    have hno : ∀ i : Nat, i < data.length → (data.getD i ([], none)).1 ≠ k := by
      intro i hi hik
      have hmem : (data.getD i ([], none)) ∈ data := by
        rw [List.getD_eq_getElem data ([], none) hi]
        exact List.getElem_mem hi
      exact assocFind_ne_none_of_mem hmem hik ha
    rw [binary_search_none data k hno]

/-! ### Fuel sufficiency for the cascade -/

theorem mergeIntoLevelGo_isSome : ∀ (fuel : Nat) (t : LSMTree) (level : Nat) (d : List Entry),
    t.levels.length - level < fuel → ∃ r, mergeIntoLevelGo fuel t level d = some r := by
  intro fuel
  induction fuel with
  | zero =>
    intro t level d h
    omega
  | succ fuel ih =>
    intro t level d h
    simp only [mergeIntoLevelGo]
    split
    · exact ⟨_, rfl⟩
    · rename_i hl
      split
      · apply ih
        simp only [List.length_set]
        omega
      · exact ⟨_, rfl⟩

theorem mergeIntoLevelGo_mono : ∀ (f g : Nat) (t : LSMTree) (level : Nat) (d : List Entry)
    (r : LSMTree), f ≤ g → mergeIntoLevelGo f t level d = some r →
    mergeIntoLevelGo g t level d = some r := by
  intro f
  induction f with
  | zero =>
    intro g t level d r _ h
    exact absurd h (by simp [mergeIntoLevelGo])
  | succ f ih =>
    intro g t level d r hfg h
    obtain ⟨g', rfl⟩ : ∃ g', g = g' + 1 := ⟨g - 1, by omega⟩
    simp only [mergeIntoLevelGo] at h ⊢
    split at h
    · rename_i hl
      rw [if_pos hl]
      exact h
    · rename_i hl
      rw [if_neg hl]
      split at h
      · rename_i hc
        rw [if_pos hc]
        exact ih g' _ _ _ _ (by omega) h
      · rename_i hc
        rw [if_neg hc]
        exact h

theorem merge_into_level_eq_go {fuel : Nat} {t : LSMTree} {level : Nat} {d : List Entry}
    {r : LSMTree} (h : mergeIntoLevelGo fuel t level d = some r) :
    t.merge_into_level level d = r := by
  obtain ⟨r0, h0⟩ := mergeIntoLevelGo_isSome (t.levels.length - level + 1) t level d (by omega)
  have h1 := mergeIntoLevelGo_mono fuel (fuel + (t.levels.length - level + 1)) t level d r
    (by omega) h
  have h2 := mergeIntoLevelGo_mono (t.levels.length - level + 1)
    (fuel + (t.levels.length - level + 1)) t level d r0 (by omega) h0
  rw [h1] at h2
  rw [LSMTree.merge_into_level, h0]
  exact (Option.some.inj h2).symm

theorem mergeIntoLevelGo_eq_merge_into_level (fuel : Nat) (t : LSMTree) (level : Nat)
    (d : List Entry) (h : t.levels.length - level < fuel) :
    mergeIntoLevelGo fuel t level d = some (t.merge_into_level level d) := by
  obtain ⟨r, hr⟩ := mergeIntoLevelGo_isSome fuel t level d h
  rw [hr, merge_into_level_eq_go hr]

/-! ### List bookkeeping for level slots -/

theorem drop_succ_set {α : Type} (l : List α) (i : Nat) (x : α) :
    (l.set i x).drop (i + 1) = l.drop (i + 1) := by
  induction l generalizing i with
  | nil => rfl
  | cons s rest ih =>
    cases i with
    | zero => rfl
    | succ i => exact ih i

theorem levelsFind_take_drop (levels : List (Option LSMLevel)) (l : Nat) (k : Key) :
    levelsFind levels k =
      oelse (levelsFind (levels.take l) k) (levelsFind (levels.drop l) k) := by
  conv_lhs => rw [← List.take_append_drop l levels]
  rw [levelsFind_append]

theorem levelsFind_drop_cons (levels : List (Option LSMLevel)) (l : Nat)
    (h : l < levels.length) (k : Key) :
    levelsFind (levels.drop l) k =
      oelse (slotFind (levels.getD l none) k) (levelsFind (levels.drop (l + 1)) k) := by
  rw [← List.get_drop_eq_drop levels l h]
  rw [List.getD_eq_getElem levels none h]
  rfl

theorem levelsFind_set (levels : List (Option LSMLevel)) (l : Nat) (x : Option LSMLevel)
    (h : l < levels.length) (k : Key) :
    levelsFind (levels.set l x) k =
      oelse (levelsFind (levels.take l) k)
        (oelse (slotFind x k) (levelsFind (levels.drop (l + 1)) k)) := by
  rw [List.set_eq_take_cons_drop x h, levelsFind_append]
  rfl

theorem levelsFind_take_succ_set (levels : List (Option LSMLevel)) (l : Nat) (k : Key) :
    levelsFind ((levels.set l none).take (l + 1)) k = levelsFind (levels.take l) k := by
  induction levels generalizing l with
  | nil => simp [List.take_nil]
  | cons s rest ih =>
    cases l with
    | zero => rfl
    | succ l =>
      show oelse (slotFind s k) (levelsFind ((rest.set l none).take (l + 1)) k) =
        oelse (slotFind s k) (levelsFind (rest.take l) k)
      rw [ih l]

/-- The data of a populated slot, with `[]` for an empty slot, looked up as an
association list, is exactly `slotFind`. -/
theorem slotFind_existing (s : Option LSMLevel) (k : Key) :
    assocFind ((s.map LSMLevel.data).getD []) k = slotFind s k := by
  cases s <;> rfl

theorem sortedE_existing (t : LSMTree) (level : Nat)
    (hsl : ∀ lv : LSMLevel, some lv ∈ t.levels → sortedE lv.data) :
    sortedE (((t.levels.getD level none).map LSMLevel.data).getD []) := by
  cases hslot : t.levels.getD level none with
  | none => exact List.Pairwise.nil
  | some lv =>
    apply hsl
    by_cases h : level < t.levels.length
    · rw [List.getD_eq_getElem t.levels none h] at hslot
      rw [← hslot]
      exact List.getElem_mem h
    · rw [List.getD_eq_default t.levels none (by omega)] at hslot
      exact absurd hslot (by simp)

theorem sortedE_set_none (levels : List (Option LSMLevel)) (level : Nat)
    (hsl : ∀ lv : LSMLevel, some lv ∈ levels → sortedE lv.data) :
    ∀ lv : LSMLevel, some lv ∈ levels.set level none → sortedE lv.data := by
  intro lv hmem
  rcases List.mem_or_eq_of_mem_set hmem with h | h
  · exact hsl lv h
  · exact absurd h (by simp)

/-! ### Effect of the cascade on level resolution -/

theorem mergeIntoLevelGo_levelsFind :
    ∀ (fuel : Nat) (t : LSMTree) (level : Nat) (d : List Entry) (r : LSMTree),
      mergeIntoLevelGo fuel t level d = some r →
      sortedE d → (∀ lv : LSMLevel, some lv ∈ t.levels → sortedE lv.data) →
      ∀ k : Key,
        levelsFind r.levels k =
          oelse (levelsFind (t.levels.take level) k)
            (oelse (assocFind d k) (levelsFind (t.levels.drop level) k)) := by
  intro fuel
  induction fuel with
  | zero =>
    intro t level d r h
    exact absurd h (by simp [mergeIntoLevelGo])
  | succ fuel ih =>
    intro t level d r h hd hsl k
    simp only [mergeIntoLevelGo] at h
    split at h
    · rename_i hl
      injection h with h'
      subst h'
      show levelsFind (t.levels ++ [some ⟨d⟩]) k = _
      rw [levelsFind_append, List.take_of_length_le hl, List.drop_eq_nil_of_le hl]
      rfl
    · rename_i hl
      have hlev : level < t.levels.length := by omega
      have hex : sortedE (((t.levels.getD level none).map LSMLevel.data).getD []) :=
        sortedE_existing t level hsl
      split at h
      · rename_i hc
        -- cascade into the next level
        have hrec := ih _ _ _ _ h (merge_sorted_sorted _ _ hex hd)
          (by
            intro lv hmem
            exact sortedE_set_none t.levels level hsl lv hmem) k
        rw [hrec]
        show oelse (levelsFind ((t.levels.set level none).take (level + 1)) k)
            (oelse (assocFind (merge_sorted (((t.levels.getD level none).map
              LSMLevel.data).getD []) d) k)
              (levelsFind ((t.levels.set level none).drop (level + 1)) k)) = _
        rw [levelsFind_take_succ_set, drop_succ_set,
          merge_sorted_assocFind _ _ hex hd k, slotFind_existing,
          levelsFind_drop_cons t.levels level hlev k, oelse_assoc]
      · rename_i hc
        injection h with h'
        subst h'
        show levelsFind ((t.levels.set level none).set level
          (some (LSMLevel.mk (merge_sorted (((t.levels.getD level none).map
            LSMLevel.data).getD []) d)))) k = _
        rw [List.set_set, levelsFind_set t.levels level _ hlev k]
        show oelse (levelsFind (t.levels.take level) k)
          (oelse (assocFind (merge_sorted (((t.levels.getD level none).map
            LSMLevel.data).getD []) d) k)
            (levelsFind (t.levels.drop (level + 1)) k)) = _
        rw [merge_sorted_assocFind _ _ hex hd k, slotFind_existing,
          levelsFind_drop_cons t.levels level hlev k, oelse_assoc]

/-! ### Frame and sortedness preservation through the cascade -/

theorem mergeIntoLevelGo_fields :
    ∀ (fuel : Nat) (t : LSMTree) (level : Nat) (d : List Entry) (r : LSMTree),
      mergeIntoLevelGo fuel t level d = some r →
      r.memtable = t.memtable ∧ r.memtable_flush_threshold = t.memtable_flush_threshold := by
  intro fuel
  induction fuel with
  | zero =>
    intro t level d r h
    exact absurd h (by simp [mergeIntoLevelGo])
  | succ fuel ih =>
    intro t level d r h
    simp only [mergeIntoLevelGo] at h
    split at h
    · injection h with h'
      subst h'
      exact ⟨rfl, rfl⟩
    · split at h
      · have hih := ih _ _ _ _ h
        exact hih
      · injection h with h'
        subst h'
        exact ⟨rfl, rfl⟩

theorem mergeIntoLevelGo_sorted :
    ∀ (fuel : Nat) (t : LSMTree) (level : Nat) (d : List Entry) (r : LSMTree),
      mergeIntoLevelGo fuel t level d = some r →
      sortedE d → (∀ lv : LSMLevel, some lv ∈ t.levels → sortedE lv.data) →
      ∀ lv : LSMLevel, some lv ∈ r.levels → sortedE lv.data := by
  intro fuel
  induction fuel with
  | zero =>
    intro t level d r h
    exact absurd h (by simp [mergeIntoLevelGo])
  | succ fuel ih =>
    intro t level d r h hd hsl
    simp only [mergeIntoLevelGo] at h
    split at h
    · injection h with h'
      subst h'
      intro lv hmem
      show sortedE lv.data
      rcases List.mem_append.mp hmem with hm | hm
      · exact hsl lv hm
      · have : some lv = some (⟨d⟩ : LSMLevel) := by
          rcases List.mem_cons.mp hm with h' | h'
          · exact h'
          · simp at h'
        have hlv : lv = (⟨d⟩ : LSMLevel) := Option.some.inj this
        rw [hlv]
        exact hd
    · rename_i hl
      have hex : sortedE (((t.levels.getD level none).map LSMLevel.data).getD []) :=
        sortedE_existing t level hsl
      split at h
      · exact ih _ _ _ _ h (merge_sorted_sorted _ _ hex hd)
          (sortedE_set_none t.levels level hsl)
      · injection h with h'
        subst h'
        intro lv hmem
        show sortedE lv.data
        have hmem' : some lv ∈ (t.levels.set level none).set level
            (some (LSMLevel.mk (merge_sorted (((t.levels.getD level none).map
              LSMLevel.data).getD []) d))) := hmem
        rcases List.mem_or_eq_of_mem_set hmem' with hm | hm
        · exact sortedE_set_none t.levels level hsl lv hm
        · have hlv := Option.some.inj hm
          rw [hlv]
          exact merge_sorted_sorted _ _ hex hd
  
/-- The canonical run of the cascade: the wrapper's fuel converges. -/
theorem merge_into_level_spec (t : LSMTree) (level : Nat) (d : List Entry) :
    mergeIntoLevelGo (t.levels.length - level + 1) t level d =
      some (t.merge_into_level level d) :=
  mergeIntoLevelGo_eq_merge_into_level _ t level d (by omega)

/-- Well-formedness of a tree: strictly sorted memtable and level runs. -/
def WF (t : LSMTree) : Prop :=
  sortedE t.memtable ∧ ∀ lv : LSMLevel, some lv ∈ t.levels → sortedE lv.data

theorem WF_new (T : Nat) : WF (LSMTree.new T) := by
  refine ⟨List.Pairwise.nil, ?_⟩
  intro lv h
  simp [LSMTree.new] at h

theorem WF_flush_aux (t2 : LSMTree) (d : List Entry) (hd : sortedE d)
    (hmt2 : sortedE t2.memtable)
    (hlv2 : ∀ lv : LSMLevel, some lv ∈ t2.levels → sortedE lv.data) :
    WF (t2.merge_into_level 0 d) := by
  have hspec := merge_into_level_spec t2 0 d
  have hf := mergeIntoLevelGo_fields _ _ _ _ _ hspec
  have hs := mergeIntoLevelGo_sorted _ _ _ _ _ hspec hd hlv2
  exact ⟨hf.1 ▸ hmt2, hs⟩

theorem WF_insert {t : LSMTree} (hwf : WF t) (k : Key) (v : Option Value) :
    WF (t.insert k v) := by
  obtain ⟨hmt, hlv⟩ := hwf
  simp only [LSMTree.insert]
  split
  · simp only [LSMTree.flush_memtable]
    exact WF_flush_aux _ _ (mtInsert_sorted t.memtable k v hmt) List.Pairwise.nil hlv
  · exact ⟨mtInsert_sorted t.memtable k v hmt, hlv⟩

theorem Reachable_WF {t : LSMTree} (h : Reachable t) : WF t := by
  induction h with
  | new T => exact WF_new T
  | insert k v _ ih => exact WF_insert ih k v

/-! ### The read path computes the association-list resolution -/

theorem levelsGet_eq_levelsFind (levels : List (Option LSMLevel))
    (hl : ∀ lv : LSMLevel, some lv ∈ levels → sortedE lv.data) (k : Key) :
    levelsGet levels k = (levelsFind levels k).getD none := by
  induction levels with
  | nil => rfl
  | cons s rest ih =>
    cases s with
    | none =>
      show levelsGet rest k = (levelsFind (none :: rest) k).getD none
      rw [ih (fun lv h => hl lv (List.mem_cons_of_mem _ h))]
      rfl
    | some lv =>
      have hs : sortedE lv.data := hl lv (List.mem_cons_self _ _)
      have hb := binary_search_assocFind lv.data k hs
      show (match binary_search lv.data k with
        | some pos => (lv.data.getD pos ([], none)).2
        | none => levelsGet rest k) =
        (oelse (assocFind lv.data k) (levelsFind rest k)).getD none
      cases hbs : binary_search lv.data k with
      | some pos =>
        rw [hbs] at hb
        rw [← hb]
        rfl
      | none =>
        rw [hbs] at hb
        rw [← hb]
        show levelsGet rest k = (oelse none (levelsFind rest k)).getD none
        rw [ih (fun lv h => hl lv (List.mem_cons_of_mem _ h))]
        rfl

theorem get_eq_resolve {t : LSMTree} (hwf : WF t) (k : Key) :
    t.get k = (resolve t k).getD none := by
  show (match assocFind t.memtable k with
    | some value => value
    | none => levelsGet t.levels k) =
    (oelse (assocFind t.memtable k) (levelsFind t.levels k)).getD none
  cases ha : assocFind t.memtable k with
  | some v => rfl
  | none =>
    show levelsGet t.levels k = (oelse none (levelsFind t.levels k)).getD none
    rw [levelsGet_eq_levelsFind t.levels hwf.2 k]
    rfl

/-- Merging `d` into level 0 resolves a key to `d` first, then to the old
levels; the memtable is untouched. -/
theorem resolve_merge_into_level_zero (t2 : LSMTree) (d : List Entry) (hd : sortedE d)
    (hlv2 : ∀ lv : LSMLevel, some lv ∈ t2.levels → sortedE lv.data) (k : Key) :
    resolve (t2.merge_into_level 0 d) k =
      oelse (assocFind t2.memtable k) (oelse (assocFind d k) (levelsFind t2.levels k)) := by
  have hspec := merge_into_level_spec t2 0 d
  have hf := mergeIntoLevelGo_fields _ _ _ _ _ hspec
  have hfind := mergeIntoLevelGo_levelsFind _ _ _ _ _ hspec hd hlv2 k
  show oelse (assocFind (t2.merge_into_level 0 d).memtable k)
    (levelsFind (t2.merge_into_level 0 d).levels k) = _
  rw [hf.1, hfind]
  rfl

theorem oelse_mtInsert (mt : List Entry) (k' : Key) (v : Option Value) (k : Key)
    (x : Option (Option Value)) :
    oelse (assocFind (mtInsert mt k' v) k) x =
      if k = k' then some v else oelse (assocFind mt k) x := by
  by_cases hk : k = k'
  · subst hk
    rw [assocFind_mtInsert_self, if_pos rfl]
    rfl
  · rw [assocFind_mtInsert_ne mt k' k v hk, if_neg hk]

/-- Resolution after `insert`: the inserted key resolves to the new value,
every other key resolves as before (whether or not the insert flushed). -/
theorem resolve_insert {t : LSMTree} (hwf : WF t) (k' : Key) (v : Option Value) (k : Key) :
    resolve (t.insert k' v) k = if k = k' then some v else resolve t k := by
  obtain ⟨hmt, hlv⟩ := hwf
  simp only [LSMTree.insert]
  split
  · simp only [LSMTree.flush_memtable]
    rw [resolve_merge_into_level_zero
      { memtable := [], levels := t.levels, memtable_flush_threshold :=
        t.memtable_flush_threshold } _ (mtInsert_sorted t.memtable k' v hmt) hlv k]
    show oelse (assocFind (mtInsert t.memtable k' v) k) (levelsFind t.levels k) = _
    rw [oelse_mtInsert]
    rfl
  · show oelse (assocFind (mtInsert t.memtable k' v) k) (levelsFind t.levels k) = _
    rw [oelse_mtInsert]
    rfl

/-! ### Field preservation and the memtable bound -/

theorem merge_into_level_fields (t : LSMTree) (level : Nat) (d : List Entry) :
    (t.merge_into_level level d).memtable = t.memtable ∧
      (t.merge_into_level level d).memtable_flush_threshold = t.memtable_flush_threshold :=
  mergeIntoLevelGo_fields _ _ _ _ _ (merge_into_level_spec t level d)

theorem insert_threshold (t : LSMTree) (k : Key) (v : Option Value) :
    (t.insert k v).memtable_flush_threshold = t.memtable_flush_threshold := by
  simp only [LSMTree.insert]
  split
  · simp only [LSMTree.flush_memtable]
    exact (merge_into_level_fields _ 0 _).2
  · rfl

theorem insert_memtable_lt (t : LSMTree) (k : Key) (v : Option Value)
    (hpos : 0 < t.memtable_flush_threshold) :
    (t.insert k v).memtable.length < (t.insert k v).memtable_flush_threshold := by
  simp only [LSMTree.insert]
  split
  · simp only [LSMTree.flush_memtable]
    have hf := merge_into_level_fields
      { memtable := [], levels := t.levels, memtable_flush_threshold :=
        t.memtable_flush_threshold } 0 (mtInsert t.memtable k v)
    rw [hf.1, hf.2]
    exact hpos
  · rename_i hth
    show (mtInsert t.memtable k v).length < t.memtable_flush_threshold
    omega

/-! ### Capacity bound and interior-level invariant -/

theorem level_capacity_le (t : LSMTree) (i : Nat) :
    t.level_capacity i ≤ t.memtable_flush_threshold * 2 ^ i := by
  calc (t.memtable_flush_threshold <<< (i % 64)) % 2 ^ 64
      ≤ t.memtable_flush_threshold <<< (i % 64) := Nat.mod_le _ _
    _ = t.memtable_flush_threshold * 2 ^ (i % 64) := Nat.shiftLeft_eq _ _
    _ ≤ t.memtable_flush_threshold * 2 ^ i :=
        Nat.mul_le_mul_left _ (Nat.pow_le_pow_right (by norm_num) (Nat.mod_le i 64))

theorem mergeIntoLevelGo_getElem_lt :
    ∀ (fuel : Nat) (t : LSMTree) (level : Nat) (d : List Entry) (r : LSMTree) (j : Nat),
      mergeIntoLevelGo fuel t level d = some r → level ≤ t.levels.length → j < level →
      r.levels[j]? = t.levels[j]? := by
  intro fuel
  induction fuel with
  | zero =>
    intro t level d r j h
    exact absurd h (by simp [mergeIntoLevelGo])
  | succ fuel ih =>
    intro t level d r j h hlev hj
    simp only [mergeIntoLevelGo] at h
    split at h
    · rename_i hl
      injection h with h'
      have hrl : r.levels = t.levels ++ [some ⟨d⟩] := by rw [← h']
      rw [hrl]
      exact List.getElem?_append_left (by omega)
    · rename_i hl
      split at h
      · have := ih _ _ _ _ j h (by simp only [List.length_set]; omega) (by omega)
        rw [this]
        show (t.levels.set level none)[j]? = t.levels[j]?
        exact List.getElem?_set_ne (by omega)
      · injection h with h'
        have hrl : r.levels = (t.levels.set level none).set level
            (some (LSMLevel.mk (merge_sorted (((t.levels.getD level none).map
              LSMLevel.data).getD []) d))) := by rw [← h']
        rw [hrl, List.getElem?_set_ne (by omega), List.getElem?_set_ne (by omega)]

/-- Populated level slots other than the last hold strictly fewer entries than
their capacity. -/
def interiorOK (t : LSMTree) : Prop :=
  ∀ i : Nat, i + 1 < t.levels.length → ∀ lv : LSMLevel,
    t.levels[i]? = some (some lv) → lv.data.length < t.level_capacity i

theorem mergeIntoLevelGo_interior :
    ∀ (fuel : Nat) (t : LSMTree) (level : Nat) (d : List Entry) (r : LSMTree),
      mergeIntoLevelGo fuel t level d = some r →
      interiorOK t → level ≤ t.levels.length →
      (level = t.levels.length → level = 0 ∨ t.levels[level - 1]? = some none) →
      interiorOK r := by
  intro fuel
  induction fuel with
  | zero =>
    intro t level d r h
    exact absurd h (by simp [mergeIntoLevelGo])
  | succ fuel ih =>
    intro t level d r h hint hlev hlast
    simp only [mergeIntoLevelGo] at h
    split at h
    · rename_i hl
      have hle : level = t.levels.length := by omega
      injection h with h'
      have hrl : r.levels = t.levels ++ [some ⟨d⟩] := by rw [← h']
      have hrc : ∀ i : Nat, r.level_capacity i = t.level_capacity i := by
        intro i
        rw [← h']
        rfl
      intro i hi lv hlv
      rw [hrc i]
      rw [hrl] at hi hlv
      have hil : i < t.levels.length := by
        simp only [List.length_append, List.length_cons, List.length_nil] at hi
        omega
      rw [List.getElem?_append_left hil] at hlv
      by_cases hii : i + 1 < t.levels.length
      · exact hint i hii lv hlv
      · rcases hlast hle with h0 | h0
        · omega
        · rw [show i = level - 1 by omega, h0] at hlv
          exact absurd (Option.some.inj hlv) (by simp)
    · rename_i hl
      split at h
      · rename_i hc
        apply ih _ _ _ _ h
        · intro i hi lv hlv
          simp only [List.length_set] at hi
          show lv.data.length < t.level_capacity i
          by_cases hieq : i = level
          · subst hieq
            rw [show ((t.levels.set i none)[i]? : Option (Option LSMLevel)) = some none from
              List.getElem?_set_self (by omega)] at hlv
            exact absurd (Option.some.inj hlv) (by simp)
          · have hlv' : t.levels[i]? = some (some lv) := by
              rw [← hlv]
              exact (List.getElem?_set_ne (by omega)).symm
            exact hint i (by omega) lv hlv'
        · simp only [List.length_set]
          omega
        · intro _
          right
          show ((t.levels.set level none)[level + 1 - 1]? : Option (Option LSMLevel)) = some none
          exact List.getElem?_set_self (by omega)
      · rename_i hc
        injection h with h'
        have hrl : r.levels = t.levels.set level
            (some (LSMLevel.mk (merge_sorted (((t.levels.getD level none).map
              LSMLevel.data).getD []) d))) := by
          rw [← h']
          show (t.levels.set level none).set level _ = _
          rw [List.set_set]
        have hrc : ∀ i : Nat, r.level_capacity i = t.level_capacity i := by
          intro i
          rw [← h']
          rfl
        intro i hi lv hlv
        rw [hrc i]
        rw [hrl] at hi hlv
        simp only [List.length_set] at hi
        by_cases hieq : i = level
        · subst hieq
          rw [show ((t.levels.set i (some (LSMLevel.mk (merge_sorted (((t.levels.getD i
              none).map LSMLevel.data).getD []) d))))[i]? : Option (Option LSMLevel)) =
              some (some (LSMLevel.mk (merge_sorted (((t.levels.getD i none).map
              LSMLevel.data).getD []) d))) from List.getElem?_set_self (by omega)] at hlv
          have hlv2 := Option.some.inj (Option.some.inj hlv)
          subst hlv2
          show (merge_sorted (((t.levels.getD i none).map LSMLevel.data).getD []) d).length <
            t.level_capacity i
          omega
        · have hlv' : t.levels[i]? = some (some lv) := by
            rw [← hlv]
            exact (List.getElem?_set_ne (by omega)).symm
          exact hint i (by omega) lv hlv'

theorem reachable_interiorOK {t : LSMTree} (hr : Reachable t) : interiorOK t := by
  induction hr with
  | new T =>
    intro i hi lv hlv
    simp [LSMTree.new] at hi
  | @insert s k v hr' ih =>
    simp only [LSMTree.insert]
    split
    · simp only [LSMTree.flush_memtable]
      have hspec := merge_into_level_spec
        { memtable := [], levels := s.levels, memtable_flush_threshold :=
          s.memtable_flush_threshold } 0 (mtInsert s.memtable k v)
      apply mergeIntoLevelGo_interior _ _ _ _ _ hspec
      · exact ih
      · exact Nat.zero_le _
      · intro _
        exact Or.inl rfl
    · exact ih

/-! ### Fresh-key insertion and fresh-tree flushes -/

theorem mtInsert_length_fresh (mt : List Entry) (k : Key) (v : Option Value)
    (hfresh : k ∉ mt.map Prod.fst) : (mtInsert mt k v).length = mt.length + 1 := by
  induction mt with
  | nil => rfl
  | cons e rest ih =>
    obtain ⟨a, b⟩ := e
    have hka : k ≠ a := by
      intro hk
      exact hfresh (by simp [hk])
    simp only [mtInsert]
    cases hcmp : cmpBytes k a with
    | lt => simp
    | eq => exact absurd ((cmpBytes_eq_iff k a).mp hcmp) hka
    | gt =>
      simp only [List.length_cons]
      rw [ih (by intro hm; exact hfresh (by simp [hm]))]

theorem mem_keys_mtInsert {mt : List Entry} {k : Key} {v : Option Value} {k' : Key}
    (h : k' ∈ (mtInsert mt k v).map Prod.fst) : k' ∈ mt.map Prod.fst ∨ k' = k := by
  rw [List.mem_map] at h
  obtain ⟨e, he, hek⟩ := h
  rcases mtInsert_mem e he with h' | h'
  · refine Or.inl ?_
    rw [← hek]
    exact List.mem_map_of_mem _ h'
  · subst h'
    exact Or.inr hek.symm

theorem insert_flush_empty_levels (mt : List Entry) (T : Nat) (k : Key) (v : Option Value)
    (hth : T ≤ (mtInsert mt k v).length) :
    ({ memtable := mt, levels := [], memtable_flush_threshold := T } : LSMTree).insert k v =
      { memtable := [], levels := [some ⟨mtInsert mt k v⟩],
        memtable_flush_threshold := T } := by
  simp only [LSMTree.insert]
  rw [if_pos hth]
  rfl

theorem insert_no_flush (mt : List Entry) (levels : List (Option LSMLevel)) (T : Nat)
    (k : Key) (v : Option Value) (h : (mtInsert mt k v).length < T) :
    ({ memtable := mt, levels := levels, memtable_flush_threshold := T } : LSMTree).insert k v =
      { memtable := mtInsert mt k v, levels := levels, memtable_flush_threshold := T } := by
  simp only [LSMTree.insert]
  rw [if_neg (show ¬ (T ≤ (mtInsert mt k v).length) from by omega)]

/-- A sequence of writes, applied in order. -/
def applyOps (t : LSMTree) (ops : List Entry) : LSMTree :=
  ops.foldl (fun s e => s.insert e.1 e.2) t

theorem applyOps_nil (t : LSMTree) : applyOps t [] = t := rfl

theorem applyOps_cons (t : LSMTree) (e : Entry) (ops : List Entry) :
    applyOps t (e :: ops) = applyOps (t.insert e.1 e.2) ops := rfl

theorem applyOps_fills_level0 :
    ∀ (entries : List Entry) (mt : List Entry) (T : Nat),
      (∀ kk ∈ entries.map Prod.fst, kk ∉ mt.map Prod.fst) →
      (entries.map Prod.fst).Nodup →
      mt.length + entries.length = T →
      0 < entries.length →
      (applyOps { memtable := mt, levels := [], memtable_flush_threshold := T }
          entries).memtable = [] ∧
        (applyOps { memtable := mt, levels := [], memtable_flush_threshold := T }
          entries).levels.map (Option.map fun lv => lv.data.length) = [some T] := by
  intro entries
  induction entries with
  | nil =>
    intro mt T _ _ _ hpos
    exact absurd hpos (by simp)
  | cons e rest ih =>
    intro mt T hfresh hnodup hlen hpos
    have hmtlen : (mtInsert mt e.1 e.2).length = mt.length + 1 :=
      mtInsert_length_fresh mt e.1 e.2 (hfresh e.1 (by simp))
    rw [applyOps_cons]
    cases rest with
    | nil =>
      have hth : T ≤ (mtInsert mt e.1 e.2).length := by
        simp only [List.length_cons, List.length_nil] at hlen
        omega
      rw [insert_flush_empty_levels mt T e.1 e.2 hth, applyOps_nil]
      refine ⟨rfl, ?_⟩
      show [some (mtInsert mt e.1 e.2).length] = [some T]
      have : (mtInsert mt e.1 e.2).length = T := by
        simp only [List.length_cons, List.length_nil] at hlen
        omega
      rw [this]
    | cons e2 rest2 =>
      have hlt : (mtInsert mt e.1 e.2).length < T := by
        simp only [List.length_cons] at hlen
        omega
      rw [insert_no_flush mt [] T e.1 e.2 hlt]
      have hnodup' := hnodup
      rw [List.map_cons, List.nodup_cons] at hnodup'
      apply ih
      · intro kk hkk hmem
        rcases mem_keys_mtInsert hmem with h' | h'
        · exact hfresh kk (by simp only [List.map_cons]; exact List.mem_cons_of_mem _ hkk) h'
        · subst h'
          exact hnodup'.1 hkk
      · exact hnodup'.2
      · simp only [List.length_cons] at hlen ⊢
        omega
      · simp

/-! ### Tombstone persistence under later unrelated writes -/

theorem resolve_applyOps (k : Key) :
    ∀ (ops : List Entry) (s : LSMTree), Reachable s →
      (∀ e ∈ ops, e.1 ≠ k) → resolve s k = some none →
      resolve (applyOps s ops) k = some none ∧ Reachable (applyOps s ops) := by
  intro ops
  induction ops with
  | nil =>
    intro s hr _ hres
    exact ⟨hres, hr⟩
  | cons e rest ih =>
    intro s hr hops hres
    rw [applyOps_cons]
    apply ih (s.insert e.1 e.2) (Reachable.insert e.1 e.2 hr)
      (fun e' he' => hops e' (List.mem_cons_of_mem _ he'))
    rw [resolve_insert (Reachable_WF hr) e.1 e.2 k,
      if_neg (fun hk => (hops e (List.mem_cons_self e rest)) hk.symm)]
    exact hres

/-! ### The claims -/

/-- C1: for every key `k` and byte-sequence value `v`, after `insert(k, v)` on
any reachable tree, `get(k)` returns `v`, no matter how many prior inserts of
other keys triggered flushes or cascades before the read. -/
theorem C1_read_your_write {t : LSMTree} (hr : Reachable t) (k : Key) (v : Value) :
    (t.insert k (some v)).get k = some v := by
  have hwf := Reachable_WF hr
  rw [get_eq_resolve (WF_insert hwf k (some v)) k, resolve_insert hwf k (some v) k,
    if_pos rfl]
  rfl

theorem C1_read_your_write_witness :
    Reachable ((LSMTree.new 2).insert [0] (some [5])) ∧
      ((((LSMTree.new 2).insert [0] (some [5])).insert [1] (some [9])).get [1]) = some [9] :=
  ⟨Reachable.insert [0] (some [5]) (Reachable.new 2),
    C1_read_your_write (Reachable.insert [0] (some [5]) (Reachable.new 2)) [1] [9]⟩

/-- C2 counterexample: with threshold 2, after the second insert (a completed
write on a reachable tree) level 0 is populated with 2 entries, which is not
strictly below its capacity 2·2^0 = 2; the first flush appends the level
without a capacity check. -/
theorem C2_counterexample :
    Reachable (((LSMTree.new 2).insert [0] (some [1])).insert [1] (some [2])) ∧
      (((LSMTree.new 2).insert [0] (some [1])).insert [1] (some [2])).levels.map
        (Option.map fun lv => lv.data.length) = [some 2] ∧
      ¬ (2 < (((LSMTree.new 2).insert [0] (some [1])).insert [1]
        (some [2])).memtable_flush_threshold * 2 ^ 0) :=
  ⟨Reachable.insert [1] (some [2]) (Reachable.insert [0] (some [1]) (Reachable.new 2)),
    by decide, by decide⟩

/-- C2 (amended): on every reachable tree, every populated level slot other
than the last holds strictly fewer entries than its capacity T·2^i; the last
slot, filled by the append step of the cascade without a capacity check, may
reach or exceed its capacity. -/
theorem C2_interior_capacity {t : LSMTree} (hr : Reachable t) (i : Nat)
    (hi : i + 1 < t.levels.length) (lv : LSMLevel)
    (hlv : t.levels[i]? = some (some lv)) :
    lv.data.length < t.memtable_flush_threshold * 2 ^ i :=
  Nat.lt_of_lt_of_le (reachable_interiorOK hr i hi lv hlv) (level_capacity_le t i)

theorem C2_interior_capacity_witness :
    (1 + 1 < (((((((((LSMTree.new 2).insert [0] (some [0])).insert [1]
        (some [1])).insert [2] (some [2])).insert [3] (some [3])).insert [4]
        (some [4])).insert [5] (some [5])).insert [6] (some [6])).insert [7]
        (some [7])).levels.length ∧
      (((((((((LSMTree.new 2).insert [0] (some [0])).insert [1]
        (some [1])).insert [2] (some [2])).insert [3] (some [3])).insert [4]
        (some [4])).insert [5] (some [5])).insert [6] (some [6])).insert [7]
        (some [7])).levels[1]? =
        some (some ⟨[([6], some [6]), ([7], some [7])]⟩)) ∧
      (⟨[([6], some [6]), ([7], some [7])]⟩ : LSMLevel).data.length <
        (((((((((LSMTree.new 2).insert [0] (some [0])).insert [1]
        (some [1])).insert [2] (some [2])).insert [3] (some [3])).insert [4]
        (some [4])).insert [5] (some [5])).insert [6] (some [6])).insert [7]
        (some [7])).memtable_flush_threshold * 2 ^ 1 :=
  ⟨⟨by decide, by decide⟩,
    C2_interior_capacity
      (Reachable.insert [7] (some [7]) (Reachable.insert [6] (some [6])
        (Reachable.insert [5] (some [5]) (Reachable.insert [4] (some [4])
          (Reachable.insert [3] (some [3]) (Reachable.insert [2] (some [2])
            (Reachable.insert [1] (some [1]) (Reachable.insert [0] (some [0])
              (Reachable.new 2)))))))))
      1 (by decide) _ (by decide)⟩

/-- C3: `merge_sorted` on two runs sorted by strictly ascending key yields a
run sorted by strictly ascending key with no duplicate keys; each key resolves
to the `new` run's entry when present there (in particular when present in
both) and to the unique input entry otherwise, with no other keys present; an
exhausted side leaves the other side verbatim. -/
theorem C3_merge_sorted_spec (old_data new_data : List Entry)
    (ho : sortedE old_data) (hn : sortedE new_data) :
    sortedE (merge_sorted old_data new_data) ∧
      ((merge_sorted old_data new_data).map Prod.fst).Nodup ∧
      (∀ k : Key, assocFind (merge_sorted old_data new_data) k =
        oelse (assocFind new_data k) (assocFind old_data k)) ∧
      merge_sorted old_data [] = old_data ∧ merge_sorted [] new_data = new_data :=
  ⟨merge_sorted_sorted _ _ ho hn,
    sortedE_keys_nodup _ (merge_sorted_sorted _ _ ho hn),
    fun k => merge_sorted_assocFind _ _ ho hn k,
    merge_sorted_nil_right _, merge_sorted_nil_left _⟩

theorem C3_merge_sorted_spec_witness :
    sortedE [([0], some [1]), ([2], some [2])] ∧
      sortedE [([0], some [9]), ([1], some [3])] ∧
      assocFind (merge_sorted [([0], some [1]), ([2], some [2])]
          [([0], some [9]), ([1], some [3])]) [0] =
        oelse (assocFind [([0], some [9]), ([1], some [3])] [0])
          (assocFind [([0], some [1]), ([2], some [2])] [0]) :=
  ⟨by decide, by decide,
    (C3_merge_sorted_spec [([0], some [1]), ([2], some [2])]
      [([0], some [9]), ([1], some [3])] (by decide) (by decide)).2.2.1 [0]⟩

/-- C4: merging new data into an existing level L whose merged run reaches the
capacity T·2^L leaves level L empty and moves the merged run into level L+1 by
the same recursive procedure (so the cascade continues upward as needed). -/
theorem C4_cascade_trigger (t : LSMTree) (L : Nat) (d : List Entry)
    (hL : L < t.levels.length)
    (hcap : t.memtable_flush_threshold * 2 ^ L ≤
      (merge_sorted (((t.levels.getD L none).map LSMLevel.data).getD []) d).length) :
    t.merge_into_level L d =
        ({ memtable := t.memtable, levels := t.levels.set L none,
           memtable_flush_threshold := t.memtable_flush_threshold } : LSMTree).merge_into_level
          (L + 1) (merge_sorted (((t.levels.getD L none).map LSMLevel.data).getD []) d) ∧
      (t.merge_into_level L d).levels[L]? = some none := by
  have hcode : t.level_capacity L ≤
      (merge_sorted (((t.levels.getD L none).map LSMLevel.data).getD []) d).length :=
    Nat.le_trans (level_capacity_le t L) hcap
  obtain ⟨r, hr⟩ := mergeIntoLevelGo_isSome (t.levels.length - L)
    ({ memtable := t.memtable, levels := t.levels.set L none,
       memtable_flush_threshold := t.memtable_flush_threshold } : LSMTree) (L + 1)
    (merge_sorted (((t.levels.getD L none).map LSMLevel.data).getD []) d)
    (by simp only [List.length_set]; omega)
  have hgo : mergeIntoLevelGo ((t.levels.length - L) + 1) t L d = some r := by
    simp only [mergeIntoLevelGo]
    rw [if_neg (show ¬ (t.levels.length ≤ L) from by omega), if_pos hcode]
    exact hr
  have hL1 : t.merge_into_level L d = r := merge_into_level_eq_go hgo
  have hR1 : ({ memtable := t.memtable, levels := t.levels.set L none,
                memtable_flush_threshold := t.memtable_flush_threshold } : LSMTree).merge_into_level
      (L + 1) (merge_sorted (((t.levels.getD L none).map LSMLevel.data).getD []) d) = r :=
    merge_into_level_eq_go hr
  refine ⟨by rw [hL1, hR1], ?_⟩
  rw [hL1]
  have hlow := mergeIntoLevelGo_getElem_lt _ _ _ _ _ L hr
    (by simp only [List.length_set]; omega) (by omega)
  rw [hlow]
  show (t.levels.set L none)[L]? = some none
  exact List.getElem?_set_self (by omega)

theorem C4_cascade_trigger_witness :
    (0 < (((LSMTree.new 2).insert [0] (some [0])).insert [1] (some [1])).levels.length ∧
      (((LSMTree.new 2).insert [0] (some [0])).insert [1]
          (some [1])).memtable_flush_threshold * 2 ^ 0 ≤
        (merge_sorted ((((((LSMTree.new 2).insert [0] (some [0])).insert [1]
          (some [1])).levels.getD 0 none).map LSMLevel.data).getD [])
          [([2], some [2]), ([3], some [3])]).length) ∧
      ((((LSMTree.new 2).insert [0] (some [0])).insert [1] (some [1])).merge_into_level 0
          [([2], some [2]), ([3], some [3])] =
        ({ memtable := (((LSMTree.new 2).insert [0] (some [0])).insert [1]
             (some [1])).memtable,
           levels := (((LSMTree.new 2).insert [0] (some [0])).insert [1]
             (some [1])).levels.set 0 none,
           memtable_flush_threshold := (((LSMTree.new 2).insert [0] (some [0])).insert [1]
             (some [1])).memtable_flush_threshold } : LSMTree).merge_into_level 1
          (merge_sorted ((((((LSMTree.new 2).insert [0] (some [0])).insert [1]
            (some [1])).levels.getD 0 none).map LSMLevel.data).getD [])
            [([2], some [2]), ([3], some [3])]) ∧
      ((((LSMTree.new 2).insert [0] (some [0])).insert [1]
          (some [1])).merge_into_level 0
          [([2], some [2]), ([3], some [3])]).levels[0]? = some none) :=
  ⟨⟨by decide, by decide⟩,
    C4_cascade_trigger (((LSMTree.new 2).insert [0] (some [0])).insert [1] (some [1])) 0
      [([2], some [2]), ([3], some [3])] (by decide) (by decide)⟩

/-- C5: starting from a fresh tree with threshold T > 0, inserting exactly T
distinct keys leaves the memtable empty and populates level 0 (the only level)
with exactly T entries. -/
theorem C5_flush_threshold (T : Nat) (hT : 0 < T) (entries : List Entry)
    (hlen : entries.length = T) (hnodup : (entries.map Prod.fst).Nodup) :
    (applyOps (LSMTree.new T) entries).memtable = [] ∧
      (applyOps (LSMTree.new T) entries).levels.map
        (Option.map fun lv => lv.data.length) = [some T] := by
  have h := applyOps_fills_level0 entries [] T (by simp) hnodup
    (by simp only [List.length_nil, Nat.zero_add]; exact hlen)
    (by rw [hlen]; exact hT)
  exact h

theorem C5_flush_threshold_witness :
    0 < 2 ∧ ([([0], some [4]), ([1], some [5])] : List Entry).length = 2 ∧
      (([([0], some [4]), ([1], some [5])] : List Entry).map Prod.fst).Nodup ∧
      (applyOps (LSMTree.new 2) [([0], some [4]), ([1], some [5])]).memtable = [] ∧
      (applyOps (LSMTree.new 2) [([0], some [4]), ([1], some [5])]).levels.map
        (Option.map fun lv => lv.data.length) = [some 2] :=
  ⟨by decide, by decide, by decide,
    (C5_flush_threshold 2 (by decide) [([0], some [4]), ([1], some [5])]
      (by decide) (by decide)).1,
    (C5_flush_threshold 2 (by decide) [([0], some [4]), ([1], some [5])]
      (by decide) (by decide)).2⟩

/-- C6: deleting a key on any reachable tree makes `get` return nothing for
it, and this persists under any sequence of later writes to other keys,
including writes that flush or merge the tombstone into deeper levels. -/
theorem C6_delete_visibility {t : LSMTree} (hr : Reachable t) (k : Key)
    (ops : List Entry) (hops : ∀ e ∈ ops, e.1 ≠ k) :
    (applyOps (t.delete k) ops).get k = none := by
  have h1 : resolve (t.delete k) k = some none := by
    show resolve (t.insert k none) k = some none
    rw [resolve_insert (Reachable_WF hr) k none k, if_pos rfl]
  have h2 := resolve_applyOps k ops (t.delete k) (Reachable.insert k none hr) hops h1
  rw [get_eq_resolve (Reachable_WF h2.2) k, h2.1]
  rfl

theorem C6_delete_visibility_witness :
    (∀ e ∈ ([([1], some [1]), ([2], some [2]), ([3], some [3])] : List Entry),
      e.1 ≠ [0]) ∧
      (applyOps (((LSMTree.new 2).insert [0] (some [3])).delete [0])
        [([1], some [1]), ([2], some [2]), ([3], some [3])]).get [0] = none :=
  ⟨by decide,
    C6_delete_visibility (Reachable.insert [0] (some [3]) (Reachable.new 2)) [0]
      [([1], some [1]), ([2], some [2]), ([3], some [3])] (by decide)⟩

/-- C7: every reachable tree built with a positive threshold has, after every
public operation returns, a memtable entry count strictly below the
threshold. -/
theorem C7_memtable_bound {t : LSMTree} (hr : Reachable t)
    (hpos : 0 < t.memtable_flush_threshold) :
    t.memtable.length < t.memtable_flush_threshold := by
  cases hr with
  | new T => exact hpos
  | @insert s k v hr' =>
    exact insert_memtable_lt s k v (by rwa [insert_threshold] at hpos)

theorem C7_memtable_bound_witness :
    0 < ((LSMTree.new 3).insert [0] (some [1])).memtable_flush_threshold ∧
      ((LSMTree.new 3).insert [0] (some [1])).memtable.length <
        ((LSMTree.new 3).insert [0] (some [1])).memtable_flush_threshold :=
  ⟨by decide,
    C7_memtable_bound (Reachable.insert [0] (some [1]) (Reachable.new 3)) (by decide)⟩

/-- C8 counterexample: with threshold 2 the program computes the capacity of
level 63 as `(2 << 63) mod 2^64 = 0`, which is not the exact integer product
2·2^63. -/
theorem C8_counterexample :
    (LSMTree.new 2).level_capacity 63 = 0 ∧
      (LSMTree.new 2).memtable_flush_threshold * 2 ^ 63 ≠ 0 := by
  constructor
  · decide
  · decide

/-- C8 (amended): the level capacity is computed in 64-bit `usize` arithmetic
(`T << i`); it equals the exact integer product T·2^i whenever that product is
below 2^64 (and wraps modulo 2^64 otherwise). -/
theorem C8_level_capacity (t : LSMTree) (i : Nat)
    (h : t.memtable_flush_threshold * 2 ^ i < 2 ^ 64) :
    t.level_capacity i = t.memtable_flush_threshold * 2 ^ i := by
  rcases Nat.eq_zero_or_pos t.memtable_flush_threshold with hT | hT
  · show (t.memtable_flush_threshold <<< (i % 64)) % 2 ^ 64 = _
    rw [hT]
    simp [Nat.shiftLeft_eq]
  · have hi : i < 64 := by
      by_contra hge
      push_neg at hge
      have h1 : (2 : Nat) ^ 64 ≤ 2 ^ i := Nat.pow_le_pow_right (by norm_num) hge
      have h2 : 2 ^ i ≤ t.memtable_flush_threshold * 2 ^ i :=
        Nat.le_mul_of_pos_left _ hT
      omega
    show (t.memtable_flush_threshold <<< (i % 64)) % 2 ^ 64 = _
    rw [Nat.mod_eq_of_lt hi, Nat.shiftLeft_eq, Nat.mod_eq_of_lt h]

theorem C8_level_capacity_witness :
    (LSMTree.new 3).memtable_flush_threshold * 2 ^ 2 < 2 ^ 64 ∧
      (LSMTree.new 3).level_capacity 2 =
        (LSMTree.new 3).memtable_flush_threshold * 2 ^ 2 :=
  ⟨by decide, C8_level_capacity (LSMTree.new 3) 2 (by decide)⟩

/-- C9 counterexample: an insert that triggers a flush leaves the memtable
entry count (0) strictly below the threshold and yet changes the levels
sequence, so the claim's hypothesis does not confine the effect to the
memtable. -/
theorem C9_counterexample :
    (((LSMTree.new 2).insert [0] (some [1])).insert [1] (some [2])).memtable.length <
        (((LSMTree.new 2).insert [0] (some [1])).insert [1]
          (some [2])).memtable_flush_threshold ∧
      (((LSMTree.new 2).insert [0] (some [1])).insert [1] (some [2])).levels ≠
        ((LSMTree.new 2).insert [0] (some [1])).levels := by
  constructor
  · decide
  · decide

/-- C9 (amended): when the memtable upsert leaves the entry count strictly
below the threshold — so the flush check fails — the call changes only the
memtable: the levels sequence and the threshold are exactly unchanged. -/
theorem C9_insert_frame (t : LSMTree) (k : Key) (v : Option Value)
    (h : (mtInsert t.memtable k v).length < t.memtable_flush_threshold) :
    (t.insert k v).memtable = mtInsert t.memtable k v ∧
      (t.insert k v).levels = t.levels ∧
      (t.insert k v).memtable_flush_threshold = t.memtable_flush_threshold := by
  simp only [LSMTree.insert]
  rw [if_neg (show ¬ (t.memtable_flush_threshold ≤ (mtInsert t.memtable k v).length) from
    by omega)]
  exact ⟨rfl, rfl, rfl⟩

theorem C9_insert_frame_witness :
    (mtInsert (LSMTree.new 2).memtable [0] (some [1])).length <
        (LSMTree.new 2).memtable_flush_threshold ∧
      (((LSMTree.new 2).insert [0] (some [1])).memtable =
          mtInsert (LSMTree.new 2).memtable [0] (some [1]) ∧
        ((LSMTree.new 2).insert [0] (some [1])).levels = (LSMTree.new 2).levels ∧
        ((LSMTree.new 2).insert [0] (some [1])).memtable_flush_threshold =
          (LSMTree.new 2).memtable_flush_threshold) :=
  ⟨by decide, C9_insert_frame (LSMTree.new 2) [0] (some [1]) (by decide)⟩

/-- C10: `merge_into_level` terminates on every input: the fuelled recursion,
run with any fuel exceeding `levels.length - level` (the cascade strictly
increases the level index and stops by appending a slot once the index reaches
the number of slots), converges to the total function; `insert` and `delete`
are total functions of the model for every threshold value, including 0. -/
theorem C10_cascade_terminates (t : LSMTree) (level : Nat) (d : List Entry) (fuel : Nat)
    (h : t.levels.length - level < fuel) :
    mergeIntoLevelGo fuel t level d = some (t.merge_into_level level d) :=
  mergeIntoLevelGo_eq_merge_into_level fuel t level d h

theorem C10_cascade_terminates_witness :
    (LSMTree.new 2).levels.length - 0 < 1 ∧
      mergeIntoLevelGo 1 (LSMTree.new 2) 0 [([0], some [1])] =
        some ((LSMTree.new 2).merge_into_level 0 [([0], some [1])]) :=
  ⟨by decide, C10_cascade_terminates (LSMTree.new 2) 0 [([0], some [1])] 1 (by decide)⟩

example :
    ((((LSMTree.new 2).insert [0] (some [10])).insert [1] (some [11])).get [0]) = some [10] := by
  decide
